import Mathlib

/-!
Verification of the moderation playground's computational kernel.

The repository's kernel consists of three pure functions:
* `parseTimeToMs` — converts a duration string such as "30s" to milliseconds
  (source: `parseTimeToMs` in moderation.ts / part_000);
* `shouldWaitForRateLimit` — the rate-limit advisor
  (source: `shouldWaitForRateLimit` in part_000);
* `analyzeResult` — extraction of flagged categories and top confidence scores
  (source: `analyzeResult` in moderation.ts / part_000).

Modelling conventions:
* JavaScript numbers holding header counts are modelled as `Option ℤ`
  (present/absent integers); scores and thresholds as `ℚ` (ideal arithmetic).
* Division by zero in `remaining / limit` follows IEEE semantics as observable
  through the single comparison `ratio < threshold` performed by the source:
  `remaining / 0` is `+Infinity` for positive `remaining` (not below any finite
  threshold), `NaN` for `remaining = 0` (all comparisons false), and
  `-Infinity` for negative `remaining` (below every finite threshold).  This is
  captured exactly by `ratioBelow`.
* `Array.prototype.sort` with comparator `(a, b) => b - a` is a stable sort,
  descending by score; it is modelled by `List.insertionSort` with the
  relation `fun p q => q.2 ≤ p.2`, which is a stable descending sort.
* The JavaScript regular expression `/(\d+)([smh])/` performs a leftmost
  search: at the first position where a digit run is immediately followed by
  one of `s`, `m`, `h`, it captures the maximal digit run and the unit.
  (Backtracking inside a digit run never succeeds, because shortening the run
  makes the next character a digit, which is not in `[smh]`.)  `findMatch`
  implements exactly this search.
-/

/-- The 13 moderation categories, in their canonical enumeration order
(the order of the `ModerationCategory` enum in the source). -/
inductive ModerationCategory where
  | sexual
  | sexualMinors
  | harassment
  | harassmentThreatening
  | hate
  | hateThreatening
  | illicit
  | illicitViolent
  | selfHarm
  | selfHarmIntent
  | selfHarmInstructions
  | violence
  | violenceGraphic
deriving DecidableEq, Repr

/-- The canonical enumeration order of the category set: the key order of the
`categories` / `category_scores` objects (`Object.entries` order). -/
def allCategories : List ModerationCategory :=
  [.sexual, .sexualMinors, .harassment, .harassmentThreatening, .hate,
   .hateThreatening, .illicit, .illicitViolent, .selfHarm, .selfHarmIntent,
   .selfHarmInstructions, .violence, .violenceGraphic]

/-- Position of a category in the canonical enumeration order. -/
def catIdx : ModerationCategory → ℕ
  | .sexual => 0
  | .sexualMinors => 1
  | .harassment => 2
  | .harassmentThreatening => 3
  | .hate => 4
  | .hateThreatening => 5
  | .illicit => 6
  | .illicitViolent => 7
  | .selfHarm => 8
  | .selfHarmIntent => 9
  | .selfHarmInstructions => 10
  | .violence => 11
  | .violenceGraphic => 12

/-- A single moderation result (source interface `ModerationResult`):
the per-category boolean verdicts, the per-category confidence scores and the
applied input types, plus the overall `flagged` bit. -/
structure ModerationResult where
  flagged : Bool
  categories : ModerationCategory → Bool
  category_scores : ModerationCategory → ℚ
  category_applied_input_types : ModerationCategory → List String

/-- Rate limit information from response headers
(source interface `RateLimitInfo`): six independently optional fields. -/
structure RateLimitInfo where
  limitRequests : Option ℤ
  limitTokens : Option ℤ
  remainingRequests : Option ℤ
  remainingTokens : Option ℤ
  resetRequests : Option String
  resetTokens : Option String

/-- Decimal value of a digit string, as computed by `parseInt` on the capture
group of `/(\d+)([smh])/` (the capture is all digits). -/
def digitsToNat (l : List Char) : ℕ :=
  l.foldl (fun acc c => 10 * acc + (c.toNat - 48)) 0

/-- Leftmost search for the pattern `/(\d+)([smh])/`: returns the captured
value and unit of the first digit run that is immediately followed by a unit
character, `none` when the string has no such occurrence. -/
def findMatch : List Char → Option (ℕ × Char)
  | [] => none
  | c :: rest =>
    if c.isDigit then
      match rest.dropWhile Char.isDigit with
      | u :: _ =>
        if u = 's' ∨ u = 'm' ∨ u = 'h' then
          some (digitsToNat (c :: rest.takeWhile Char.isDigit), u)
        else
          findMatch rest
      | [] => none
    else
      findMatch rest

/-- Source `parseTimeToMs`: match `/(\d+)([smh])/` against the string; on
failure return 0; otherwise dispatch on the unit (`switch` with a default
branch returning 0). -/
def parseTimeToMs (timeStr : String) : ℕ :=
  match findMatch timeStr.toList with
  | none => 0
  | some (value, unit) =>
    if unit = 's' then value * 1000
    else if unit = 'm' then value * 60 * 1000
    else if unit = 'h' then value * 60 * 60 * 1000
    else 0

/-- The comparison `remaining / limit < threshold` of the source, including
IEEE division-by-zero behaviour: `remaining / 0` is `-Infinity` when
`remaining < 0` (below every finite threshold) and `+Infinity` or `NaN`
otherwise (never below a finite threshold).  For a nonzero `limit` the
comparison is the exact rational one. -/
def ratioBelow (remaining limit : ℤ) (threshold : ℚ) : Bool :=
  if limit = 0 then decide (remaining < 0)
  else decide ((remaining : ℚ) / (limit : ℚ) < threshold)

/-- JavaScript truthiness of an optional string: `undefined` and `""` are
falsy, every other string is truthy. -/
def jsTruthy : Option String → Bool
  | none => false
  | some s => !s.isEmpty

/-- One dimension check of the source `shouldWaitForRateLimit` (the requests
block and the tokens block are the same logic over different fields): when
both numeric fields are present, the ratio is below the threshold and the
reset string is truthy, raise `waitTime` to the parsed reset duration. -/
def checkDimension (waitTime : ℕ) (remaining limit : Option ℤ)
    (reset : Option String) (threshold : ℚ) : ℕ :=
  match remaining, limit with
  | some remaining, some limit =>
    if ratioBelow remaining limit threshold && jsTruthy reset then
      max waitTime (parseTimeToMs (reset.getD ("")))
    else waitTime
  | _, _ => waitTime

/-- Source `shouldWaitForRateLimit`: start from `waitTime = 0`, run the
requests check, then the tokens check, return the final `waitTime`. -/
def shouldWaitForRateLimit (rateLimitInfo : RateLimitInfo)
    (threshold : ℚ) : ℕ :=
  let waitTime : ℕ := 0
  let waitTime := checkDimension waitTime rateLimitInfo.remainingRequests
    rateLimitInfo.limitRequests rateLimitInfo.resetRequests threshold
  let waitTime := checkDimension waitTime rateLimitInfo.remainingTokens
    rateLimitInfo.limitTokens rateLimitInfo.resetTokens threshold
  waitTime

/-- One entry of `Object.entries(result.category_scores)`. -/
abbrev ScoreEntry := ModerationCategory × ℚ

/-- `Object.entries(result.category_scores)`, in the canonical key order. -/
def scoreEntries (result : ModerationResult) : List ScoreEntry :=
  allCategories.map fun c => (c, result.category_scores c)

/-- The data computed by the source `analyzeResult` routine (the kernel
returns data only; the surrounding logging is presentation). -/
structure AnalysisOutput where
  flaggedCategories : List ModerationCategory
  topScores : List ScoreEntry
deriving DecidableEq

/-- Source `analyzeResult`, data part:
`flaggedCategories = Object.entries(result.categories).filter(flagged).map(fst)`;
`topScores = Object.entries(result.category_scores).filter(score > 0.1)
  .sort((a, b) => b - a).slice(0, 3)`.
The stable descending sort of `Array.prototype.sort` is modelled by
`List.insertionSort` with `fun p q => q.2 ≤ p.2` (a stable descending sort:
each element is inserted after all strictly greater ones and before the
equal ones, which all come later in the original order). -/
def analyzeResult (result : ModerationResult) : AnalysisOutput :=
  { flaggedCategories := allCategories.filter fun c => result.categories c
    topScores :=
      (List.insertionSort (fun p q : ScoreEntry => q.2 ≤ p.2)
        ((scoreEntries result).filter fun p => decide ((1 : ℚ)/10 < p.2))).take 3 }

/-- A concrete all-clear moderation result, used by witnesses. -/
def cleanResult : ModerationResult :=
  { flagged := false
    categories := fun _ => false
    category_scores := fun _ => 0
    category_applied_input_types := fun _ => [] }

/-- A concrete rate-limit record matching the spec's worked example. -/
def infoExample : RateLimitInfo :=
  { limitRequests := some 100
    limitTokens := some 1000
    remainingRequests := some 5
    remainingTokens := some 1
    resetRequests := some ("30s")
    resetTokens := some ("1h") }

/-- A concrete rate-limit record with a present zero limit and a present
negative remaining count for the requests dimension. -/
def infoNegRem : RateLimitInfo :=
  { limitRequests := some 0
    limitTokens := none
    remainingRequests := some (-1)
    remainingTokens := none
    resetRequests := some ("30s")
    resetTokens := none }

/-- Candidate wait of one dimension, written from the spec's words (§4.2):
a dimension is a candidate exactly when both its numeric fields and its
reset-duration string are present and the ratio is strictly below the
threshold, in which case the candidate wait is the Duration Parser's value
of the reset string; otherwise it contributes 0. -/
def specCandidateWait (remaining limit : Option ℤ) (reset : Option String)
    (threshold : ℚ) : ℕ :=
  match remaining, limit, reset with
  | some rem, some lim, some s =>
    if ratioBelow rem lim threshold then parseTimeToMs s else 0
  | _, _, _ => 0

/-- Whether a string is wholly of the form `<digits><unit>` with the unit in
{s, m, h}: a nonempty all-digit prefix followed by one final unit
character. -/
def wellFormedDuration (s : String) : Bool :=
  match s.toList.getLast? with
  | none => false
  | some u =>
    (u == 's' || u == 'm' || u == 'h') && !s.toList.dropLast.isEmpty &&
      s.toList.dropLast.all Char.isDigit

/-- Whether some digit of the string is immediately followed by a unit
character — exactly the condition for `/(\d+)([smh])/` to have a match. -/
def hasDigitUnitPair : List Char → Bool
  | d :: u :: rest =>
    (d.isDigit && (u == 's' || u == 'm' || u == 'h')) ||
      hasDigitUnitPair (u :: rest)
  | _ => false

/-- Descending-score order with the stability tie-break: `p` may precede `q`
when its score is strictly greater, or when the scores are equal and `p`
comes no later in the canonical enumeration order. -/
def entryLE (p q : ScoreEntry) : Prop :=
  q.2 < p.2 ∨ (p.2 = q.2 ∧ catIdx p.1 ≤ catIdx q.1)

example : parseTimeToMs ("30s") = 30000 := by decide
example : parseTimeToMs ("2m") = 120000 := by decide
example : parseTimeToMs ("1h") = 3600000 := by decide
example : parseTimeToMs ("") = 0 := by decide
example : parseTimeToMs ("abc") = 0 := by decide
example : parseTimeToMs ("5x") = 0 := by decide
example : parseTimeToMs ("x5s") = 5000 := by decide

example : shouldWaitForRateLimit infoExample (1/10) = 3600000 := by
  have h30 : parseTimeToMs ("30s") = 30000 := by decide
  have h1h : parseTimeToMs ("1h") = 3600000 := by decide
  have hr1 : ratioBelow 5 100 ((10 : ℚ)⁻¹) = true := by
    simp only [ratioBelow]; norm_num
  have hr2 : ratioBelow 1 1000 ((10 : ℚ)⁻¹) = true := by
    simp only [ratioBelow]; norm_num
  have he1 : "30s".isEmpty = false := by decide
  have he2 : "1h".isEmpty = false := by decide
  simp [shouldWaitForRateLimit, checkDimension, infoExample, jsTruthy,
    hr1, hr2, he1, he2, h30, h1h]
example : shouldWaitForRateLimit infoNegRem (1/10) = 30000 := by decide
example :
    shouldWaitForRateLimit
      { infoNegRem with remainingRequests := some 0 } (1/10) = 0 := by decide

lemma parseTimeToMs_empty : parseTimeToMs ("") = 0 := rfl

/-- One dimension of the source advisor computes exactly the spec-side
candidate: the only divergence, the source's truthiness test rejecting the
empty reset string `""`, is unobservable because the Duration Parser maps
`""` to a 0 candidate anyway. -/
lemma checkDimension_eq (w : ℕ) (rem lim : Option ℤ) (reset : Option String)
    (t : ℚ) :
    checkDimension w rem lim reset t = max w (specCandidateWait rem lim reset t) := by
  cases rem with
  | none => cases lim <;> cases reset <;> simp [checkDimension, specCandidateWait]
  | some rv =>
    cases lim with
    | none => cases reset <;> simp [checkDimension, specCandidateWait]
    | some lv =>
      cases reset with
      | none => simp [checkDimension, specCandidateWait, jsTruthy]
      | some s =>
        by_cases hs : s.isEmpty
        · have hs0 : s = "" := (String.isEmpty_iff s).1 hs
          subst hs0
          simp only [checkDimension, specCandidateWait, jsTruthy,
            parseTimeToMs_empty, hs]
          cases ratioBelow rv lv t <;> simp
        · have hs0 : s.isEmpty = false := by
            cases h' : s.isEmpty with
            | true => exact absurd h' hs
            | false => rfl
          simp only [checkDimension, specCandidateWait, jsTruthy, hs0]
          cases hrb : ratioBelow rv lv t <;> simp [hrb]

/-- The source advisor is the maximum of the two per-dimension candidates. -/
lemma shouldWaitForRateLimit_eq_max (info : RateLimitInfo) (t : ℚ) :
    shouldWaitForRateLimit info t =
      max (specCandidateWait info.remainingRequests info.limitRequests
            info.resetRequests t)
          (specCandidateWait info.remainingTokens info.limitTokens
            info.resetTokens t) := by
  simp only [shouldWaitForRateLimit, checkDimension_eq, Nat.zero_max]

/-- C3: `adviseWait` treats a dimension as a candidate exactly when both its
remaining and limit fields are present, the ratio is strictly below the
threshold, and the reset-duration string is present, in which case the
candidate is the Duration Parser's value of that string; the result is the
maximum of the candidate waits, and 0 when no dimension is a candidate
(in particular when either field of a pair is missing, that dimension's
candidate is 0 by definition of `specCandidateWait`). -/
theorem adviseWait_eq_max_candidates (info : RateLimitInfo) (t : ℚ) :
    shouldWaitForRateLimit info t =
      max (specCandidateWait info.remainingRequests info.limitRequests
            info.resetRequests t)
          (specCandidateWait info.remainingTokens info.limitTokens
            info.resetTokens t) :=
  shouldWaitForRateLimit_eq_max info t

/-- C6: the three kernel components are total functions — for every
well-typed input each returns a value (the embedding mirrors the source
control flow, which has no throw on any path of these functions). -/
theorem kernelComponents_total (s : String) (info : RateLimitInfo) (t : ℚ)
    (r : ModerationResult) :
    (∃ n : ℕ, parseTimeToMs s = n) ∧
      (∃ w : ℕ, shouldWaitForRateLimit info t = w) ∧
      (∃ a : AnalysisOutput, analyzeResult r = a) :=
  ⟨⟨_, rfl⟩, ⟨_, rfl⟩, ⟨_, rfl⟩⟩

/-- C8: `adviseWait` is a pure function of the threshold and the six
documented fields of its `RateLimitInfo` argument (which are all the fields
the record has): inputs agreeing on those fields give equal outputs. -/
theorem adviseWait_pure (i j : RateLimitInfo) (t : ℚ)
    (h1 : i.limitRequests = j.limitRequests)
    (h2 : i.limitTokens = j.limitTokens)
    (h3 : i.remainingRequests = j.remainingRequests)
    (h4 : i.remainingTokens = j.remainingTokens)
    (h5 : i.resetRequests = j.resetRequests)
    (h6 : i.resetTokens = j.resetTokens) :
    shouldWaitForRateLimit i t = shouldWaitForRateLimit j t := by
  simp only [shouldWaitForRateLimit, h1, h2, h3, h4, h5, h6]

theorem adviseWait_pure_witness :
    shouldWaitForRateLimit infoExample (1/10) =
      shouldWaitForRateLimit infoExample (1/10) :=
  adviseWait_pure infoExample infoExample (1/10) rfl rfl rfl rfl rfl rfl

/-- C9: `parseDuration` always returns a nonnegative multiple of 1000, and
`adviseWait` always returns a nonnegative integer. -/
theorem parseTimeToMs_multipleOf1000 (s : String) (info : RateLimitInfo)
    (t : ℚ) :
    1000 ∣ parseTimeToMs s ∧ (0 : ℤ) ≤ (parseTimeToMs s : ℤ) ∧
      (0 : ℤ) ≤ (shouldWaitForRateLimit info t : ℤ) := by
  refine ⟨?_, Int.natCast_nonneg _, Int.natCast_nonneg _⟩
  unfold parseTimeToMs
  cases findMatch s.toList with
  | none => exact dvd_zero 1000
  | some p =>
    obtain ⟨v, u⟩ := p
    dsimp only
    split_ifs
    · exact ⟨v, by ring⟩
    · exact ⟨v * 60, by ring⟩
    · exact ⟨v * 60 * 60, by ring⟩
    · exact dvd_zero 1000

/-- C10 (corrected), counterexample: with `limitRequests = 0` present and a
negative `remainingRequests` present, `remaining / 0` is `-Infinity`, which
is strictly below the 0.1 threshold, so the requests dimension does
contribute a candidate: the advisor returns 30000, not 0, although the
tokens dimension is entirely absent. -/
theorem adviseWait_zeroLimit_cex :
    infoNegRem.limitRequests = some 0 ∧
      infoNegRem.remainingRequests = some (-1) ∧
      infoNegRem.remainingTokens = none ∧
      shouldWaitForRateLimit infoNegRem (1/10) = 30000 :=
  ⟨rfl, rfl, rfl, by decide⟩

/-- C10 (amended): with a present zero limit and a present nonnegative
remaining count, the dimension contributes no candidate wait (`remaining/0`
is `+Infinity` or `NaN`, never strictly below the threshold), and the
advisor always returns a value without raising. -/
theorem adviseWait_zeroLimit (info : RateLimitInfo) (t : ℚ) (rem : ℤ)
    (reset : Option String) (h : 0 ≤ rem) :
    specCandidateWait (some rem) (some 0) reset t = 0 ∧
      ∃ n : ℕ, shouldWaitForRateLimit info t = n := by
  refine ⟨?_, ⟨_, rfl⟩⟩
  have hr : ratioBelow rem 0 t = false := by
    have hn : ¬rem < 0 := not_lt.2 h
    simp [ratioBelow, hn]
  cases reset <;> simp [specCandidateWait, hr]

theorem adviseWait_zeroLimit_witness :
    specCandidateWait (some 0) (some 0) (some ("30s")) (1/10) = 0 ∧
      ∃ n : ℕ, shouldWaitForRateLimit infoExample (1/10) = n :=
  adviseWait_zeroLimit infoExample (1/10) 0 (some ("30s")) (by decide)

lemma takeWhile_dropWhile_digits (l : List Char) (x : Char)
    (h : ∀ c ∈ l, c.isDigit = true) (hx : x.isDigit = false) :
    (l ++ [x]).takeWhile Char.isDigit = l ∧
      (l ++ [x]).dropWhile Char.isDigit = [x] := by
  induction l with
  | nil => simp [List.takeWhile, List.dropWhile, hx]
  | cons a l ih =>
    have ha : a.isDigit = true := h a (List.mem_cons_self a l)
    have h' : ∀ c ∈ l, c.isDigit = true := fun c hc =>
      h c (List.mem_cons_of_mem a hc)
    obtain ⟨ht, hd⟩ := ih h'
    simp [List.takeWhile_cons, List.dropWhile_cons, ha, ht, hd]

/-- The leftmost regex search on a string that is wholly `<digits><unit>`
finds the whole digit run and the unit. -/
lemma findMatch_wellFormed (d : Char) (ds : List Char) (u : Char)
    (hd : d.isDigit = true) (hds : ∀ c ∈ ds, c.isDigit = true)
    (hu : u = 's' ∨ u = 'm' ∨ u = 'h') :
    findMatch ((d :: ds) ++ [u]) = some (digitsToNat (d :: ds), u) := by
  have hxu : u.isDigit = false := by
    rcases hu with rfl | rfl | rfl <;> decide
  obtain ⟨ht, hdr⟩ := takeWhile_dropWhile_digits ds u hds hxu
  simp only [List.cons_append, findMatch, hd, if_true, List.append_eq,
    hdr, ht]
  simp [hu]

/-- C4: for every string of the form `<digits><unit>` with unit in
{s, m, h}, `parseDuration` extracts the leading integer value and scales it
by 1000 / 60000 / 3600000 for s / m / h; in particular
`parseDuration "30s" = 30000`, `parseDuration "2m" = 120000` and
`parseDuration "1h" = 3600000`. -/
theorem parseDuration_wellFormed :
    (∀ (ds : List Char) (u : Char), ds ≠ [] →
      (∀ c ∈ ds, c.isDigit = true) → (u = 's' ∨ u = 'm' ∨ u = 'h') →
      parseTimeToMs (String.mk (ds ++ [u])) =
        digitsToNat ds *
          (if u = 's' then 1000 else if u = 'm' then 60000 else 3600000)) ∧
    parseTimeToMs ("30s") = 30000 ∧ parseTimeToMs ("2m") = 120000 ∧
      parseTimeToMs ("1h") = 3600000 := by
  refine ⟨?_, by decide, by decide, by decide⟩
  intro ds u hne hds hu
  obtain ⟨d, ds', rfl⟩ := List.exists_cons_of_ne_nil hne
  have hfm := findMatch_wellFormed d ds' u
    (hds d (List.mem_cons_self d ds'))
    (fun c hc => hds c (List.mem_cons_of_mem d hc)) hu
  have htl : (String.mk ((d :: ds') ++ [u])).toList = (d :: ds') ++ [u] := rfl
  simp only [parseTimeToMs, htl, hfm]
  rcases hu with rfl | rfl | rfl <;> simp <;> ring

theorem parseDuration_wellFormed_witness :
    parseTimeToMs (String.mk (['4', '5'] ++ ['s'])) =
      digitsToNat ['4', '5'] *
        (if 's' = 's' then 1000 else if 's' = 'm' then 60000 else 3600000) :=
  parseDuration_wellFormed.1 ['4', '5'] 's' (by decide) (by decide)
    (Or.inl rfl)

/-- C5 (corrected), counterexample: "x5s" is not of the form
`<digits><unit>` (it is malformed as a whole), yet the unanchored regex
search finds the embedded "5s" and `parseDuration` returns 5000, not 0. -/
theorem parseDuration_malformed_cex :
    wellFormedDuration ("x5s") = false ∧ parseTimeToMs ("x5s") = 5000 ∧
      parseTimeToMs ("x5s") ≠ 0 :=
  ⟨by decide, by decide, by decide⟩

lemma hasPair_of_dropWhile :
    ∀ (l : List Char) (c : Char), c.isDigit = true →
      ∀ (u : Char) (t : List Char),
        l.dropWhile Char.isDigit = u :: t →
        (u == 's' || u == 'm' || u == 'h') = true →
        hasDigitUnitPair (c :: l) = true
  | [], _, _, u, t, h, _ => by simp [List.dropWhile] at h
  | r :: rs, c, hc, u, t, h, hu => by
    by_cases hr : r.isDigit
    · have h' : rs.dropWhile Char.isDigit = u :: t := by
        simpa [List.dropWhile_cons, hr] using h
      have hrec := hasPair_of_dropWhile rs r hr u t h' hu
      simp [hasDigitUnitPair, hrec]
    · have hru : r = u := by
        have hh : r :: rs = u :: t := by
          simpa [List.dropWhile_cons, hr] using h
        exact (List.cons_eq_cons.1 hh).1
      subst hru
      simp [hasDigitUnitPair, hc, hu]

lemma hasPair_of_findMatch :
    ∀ (l : List Char) (p : ℕ × Char), findMatch l = some p →
      hasDigitUnitPair l = true
  | [], p, h => by simp [findMatch] at h
  | c :: rest, p, h => by
    by_cases hc : c.isDigit
    · cases hdw : rest.dropWhile Char.isDigit with
      | nil => simp [findMatch, hc, hdw] at h
      | cons u t =>
        by_cases hu : u = 's' ∨ u = 'm' ∨ u = 'h'
        · have hu' : (u == 's' || u == 'm' || u == 'h') = true := by
            rcases hu with rfl | rfl | rfl <;> decide
          exact hasPair_of_dropWhile rest c hc u t hdw hu'
        · have h' : findMatch rest = some p := by
            simpa [findMatch, hc, hdw, hu] using h
          have hrec := hasPair_of_findMatch rest p h'
          cases rest with
          | nil => simp [findMatch] at h'
          | cons r rs => simp [hasDigitUnitPair, hrec]
    · have h' : findMatch rest = some p := by
        simpa [findMatch, hc] using h
      have hrec := hasPair_of_findMatch rest p h'
      cases rest with
      | nil => simp [findMatch] at h'
      | cons r rs => simp [hasDigitUnitPair, hrec]

/-- C5 (amended): for every string in which no digit is immediately
followed by one of s, m, h — in particular the empty string, all-letter
strings and digit strings with an unknown unit — `parseDuration` returns 0
and never raises. -/
theorem parseDuration_noMatch (s : String)
    (h : hasDigitUnitPair s.toList = false) :
    parseTimeToMs s = 0 ∧ parseTimeToMs ("") = 0 ∧ parseTimeToMs ("abc") = 0 ∧
      parseTimeToMs ("5x") = 0 := by
  refine ⟨?_, by decide, by decide, by decide⟩
  unfold parseTimeToMs
  cases hm : findMatch s.toList with
  | none => rfl
  | some p =>
    have hp := hasPair_of_findMatch s.toList p hm
    rw [hp] at h
    exact absurd h (by simp)

theorem parseDuration_noMatch_witness :
    parseTimeToMs ("abc") = 0 ∧ parseTimeToMs ("") = 0 ∧
      parseTimeToMs ("abc") = 0 ∧ parseTimeToMs ("5x") = 0 :=
  parseDuration_noMatch ("abc") (by decide)

lemma entryLE_score {p q : ScoreEntry} (h : entryLE p q) : q.2 ≤ p.2 := by
  rcases h with h | ⟨h, _⟩
  · exact le_of_lt h
  · exact le_of_eq h.symm

/-- Inserting an element that originally comes after every element of an
`entryLE`-sorted list (strictly larger enumeration index) keeps the list
`entryLE`-sorted: the stable insertion places it after all strictly greater
scores and after all equal scores. -/
lemma sorted_orderedInsert_lex (a : ScoreEntry) (l : List ScoreEntry)
    (hs : l.Sorted entryLE) (ha : ∀ b ∈ l, catIdx a.1 < catIdx b.1) :
    (List.orderedInsert (fun p q : ScoreEntry => q.2 ≤ p.2) a l).Sorted
      entryLE := by
  induction l with
  | nil => simp [List.Sorted]
  | cons b l ih =>
    rw [List.orderedInsert]
    by_cases hb : b.2 ≤ a.2
    · rw [if_pos hb]
      refine List.Pairwise.cons ?_ hs
      intro c hc
      rcases List.mem_cons.1 hc with rfl | hcl
      · rcases lt_or_eq_of_le hb with h | h
        · exact Or.inl h
        · exact Or.inr ⟨h.symm, le_of_lt (ha c (List.mem_cons_self c l))⟩
      · have hcb : c.2 ≤ b.2 :=
          entryLE_score ((List.pairwise_cons.1 hs).1 c hcl)
        rcases lt_or_eq_of_le (le_trans hcb hb) with h | h
        · exact Or.inl h
        · exact Or.inr ⟨h.symm, le_of_lt (ha c (List.mem_cons_of_mem b hcl))⟩
    · rw [if_neg hb]
      have hs' : l.Sorted entryLE := (List.pairwise_cons.1 hs).2
      have ha' : ∀ b' ∈ l, catIdx a.1 < catIdx b'.1 := fun b' hb' =>
        ha b' (List.mem_cons_of_mem b hb')
      refine List.Pairwise.cons ?_ (ih hs' ha')
      intro c hc
      rcases (List.mem_orderedInsert (fun p q : ScoreEntry => q.2 ≤ p.2)).1
        hc with rfl | hcl
      · exact Or.inl (lt_of_not_le hb)
      · exact (List.pairwise_cons.1 hs).1 c hcl

/-- The stable descending sort of a list whose enumeration indices strictly
increase is `entryLE`-sorted: descending by score, with ties kept in the
original enumeration order. -/
lemma sorted_insertionSort_lex (l : List ScoreEntry)
    (h : l.Pairwise fun p q => catIdx p.1 < catIdx q.1) :
    (List.insertionSort (fun p q : ScoreEntry => q.2 ≤ p.2) l).Sorted
      entryLE := by
  induction l with
  | nil => simp [List.Sorted]
  | cons a l ih =>
    rw [List.insertionSort]
    obtain ⟨ha, h'⟩ := List.pairwise_cons.1 h
    refine sorted_orderedInsert_lex a _ (ih h') ?_
    intro b hb
    exact ha b ((List.perm_insertionSort _ l).mem_iff.1 hb)

lemma pairwise_catIdx_allCategories :
    allCategories.Pairwise fun a b => catIdx a < catIdx b := by decide

lemma pairwise_catIdx_filter (r : ModerationResult) :
    ((scoreEntries r).filter fun p => decide ((1 : ℚ)/10 < p.2)).Pairwise
      fun p q : ScoreEntry => catIdx p.1 < catIdx q.1 := by
  have hmap : (scoreEntries r).Pairwise
      fun p q : ScoreEntry => catIdx p.1 < catIdx q.1 := by
    unfold scoreEntries
    rw [List.pairwise_map]
    exact pairwise_catIdx_allCategories
  exact List.Pairwise.sublist (List.filter_sublist _) hmap

/-- C1: `topScores` has at most 3 entries, is descending by score, every
entry's score is strictly above 0.1, and it is the 3-entry truncation of an
ordering of exactly the categories scoring above 0.1 that is descending by
score with ties kept stable in the canonical enumeration order
(`entryLE`-sorted). -/
theorem analyze_topScores_spec (r : ModerationResult) :
    (analyzeResult r).topScores.length ≤ 3 ∧
      (analyzeResult r).topScores.Sorted
        (fun p q : ScoreEntry => q.2 ≤ p.2) ∧
      (∀ p ∈ (analyzeResult r).topScores, (1 : ℚ)/10 < p.2) ∧
      ∃ l : List ScoreEntry, l.Perm
          ((scoreEntries r).filter fun p => decide ((1 : ℚ)/10 < p.2)) ∧
        l.Sorted entryLE ∧ (analyzeResult r).topScores = l.take 3 := by
  have hsorted := sorted_insertionSort_lex _ (pairwise_catIdx_filter r)
  have hperm := List.perm_insertionSort (fun p q : ScoreEntry => q.2 ≤ p.2)
    ((scoreEntries r).filter fun p => decide ((1 : ℚ)/10 < p.2))
  have htop : (analyzeResult r).topScores =
      (List.insertionSort (fun p q : ScoreEntry => q.2 ≤ p.2)
        ((scoreEntries r).filter fun p => decide ((1 : ℚ)/10 < p.2))).take
        3 := rfl
  refine ⟨?_, ?_, ?_, ⟨_, hperm, hsorted, htop⟩⟩
  · rw [htop]
    exact List.length_take_le 3 _
  · rw [htop]
    exact List.Pairwise.imp (fun h => entryLE_score h)
      (List.Pairwise.sublist (List.take_sublist 3 _) hsorted)
  · intro p hp
    rw [htop] at hp
    have h1 := List.mem_of_mem_take hp
    have h2 := hperm.mem_iff.1 h1
    exact of_decide_eq_true (List.mem_filter.1 h2).2

lemma mem_allCategories (c : ModerationCategory) : c ∈ allCategories := by
  cases c <;> decide

/-- C2: `flaggedCategories` holds exactly the categories whose boolean is
true, as a sublist of the canonical enumeration order; when every category
boolean is false it is empty. -/
theorem analyze_flaggedCategories_spec (r : ModerationResult) :
    (∀ c, c ∈ (analyzeResult r).flaggedCategories ↔
      r.categories c = true) ∧
      (analyzeResult r).flaggedCategories.Sublist allCategories ∧
      ((∀ c, r.categories c = false) →
        (analyzeResult r).flaggedCategories = []) := by
  refine ⟨?_, ?_, ?_⟩
  · intro c
    simp [analyzeResult, List.mem_filter, mem_allCategories]
  · exact List.filter_sublist _
  · intro h
    simp [analyzeResult, h]

theorem analyze_flaggedCategories_witness :
    (analyzeResult cleanResult).flaggedCategories = [] :=
  (analyze_flaggedCategories_spec cleanResult).2.2 fun _ => rfl

/-- C7: `analyze` is deterministic and output depends only on the observable
fields of its (unmutated) input: calling it twice yields identical outputs,
and inputs with equal category booleans and scores give equal outputs. -/
theorem analyze_pure (r₁ r₂ : ModerationResult)
    (hc : ∀ c, r₁.categories c = r₂.categories c)
    (hs : ∀ c, r₁.category_scores c = r₂.category_scores c) :
    analyzeResult r₁ = analyzeResult r₂ ∧
      analyzeResult r₁ = analyzeResult r₁ := by
  refine ⟨?_, rfl⟩
  have h1 : (fun c => r₁.categories c) = fun c => r₂.categories c :=
    funext hc
  have h2 : scoreEntries r₁ = scoreEntries r₂ := by
    unfold scoreEntries
    have he : (fun c => (c, r₁.category_scores c)) =
        fun c : ModerationCategory => (c, r₂.category_scores c) := by
      funext c
      rw [hs c]
    rw [he]
  simp only [analyzeResult, h1, h2]

theorem analyze_pure_witness :
    analyzeResult cleanResult = analyzeResult cleanResult ∧
      analyzeResult cleanResult = analyzeResult cleanResult :=
  analyze_pure cleanResult cleanResult (fun _ => rfl) (fun _ => rfl)

theorem analyze_topScores_witness :
    (analyzeResult cleanResult).topScores.length ≤ 3 :=
  (analyze_topScores_spec cleanResult).1

